import Mathlib

/-!
# Verification of the `shrev` ring buffer (`src/storage.rs`)

Shallow embedding of `RingBufferStorage`, its write paths, reader cursors and
the lazy `StorageIterator`, together with proofs of the specification's
testable properties.  Machine `usize` values are modelled as `Nat`; the
wraparound of the `written` counter is explicit in `single_write` exactly as
in the source.  The runtime `TypeId` tag is modelled as a `Nat` parameter.
-/

namespace Shrev

/-- Ringbuffer errors (`RBError` in the source). -/
inductive RBError where
  | TooLargeWrite
  | InvalidReader
deriving DecidableEq, Repr

/-- Reader cursor (`ReaderId` in the source): type tag, read position and the
snapshot of the `written` counter taken at the last synchronisation. -/
structure ReaderId where
  t : Nat
  read_index : Nat
  written : Nat
deriving DecidableEq, Repr

/-- The ring buffer (`RingBufferStorage<T>`): backing store, write position,
capacity, write counter and its rebase threshold. -/
structure RingBufferStorage (T : Type) where
  data : List T
  write_index : Nat
  max_size : Nat
  written : Nat
  reset_written : Nat
deriving DecidableEq, Repr

/-- `RingBufferStorage::new(size)`. -/
def RingBufferStorage.new (T : Type) (size : Nat) : RingBufferStorage T :=
  { data := [], write_index := 0, max_size := size, written := 0,
    reset_written := size * 1000 }

/-- `RingBufferStorage::single_write`.  Appends when `write_index` equals the
physical length, otherwise overwrites in place (`self.data[write_index] = data`
in the source, which requires `write_index < data.len()`; in-bounds-ness is
proved below for reachable states).  Advances `write_index` with wrap at
`max_size` and `written` with reset once it exceeds `reset_written`. -/
def single_write {T : Type} (s : RingBufferStorage T) (d : T) : RingBufferStorage T :=
  let data := if s.write_index = s.data.length then s.data ++ [d]
              else s.data.set s.write_index d
  let wi0 := s.write_index + 1
  let wi := if s.max_size ≤ wi0 then 0 else wi0
  let w0 := s.written + 1
  let w := if s.reset_written < w0 then 0 else w0
  { data := data, write_index := wi, max_size := s.max_size, written := w,
    reset_written := s.reset_written }

/-- Folding a whole list of values through `single_write`. -/
def writeAll {T : Type} (s : RingBufferStorage T) (l : List T) : RingBufferStorage T :=
  l.foldl single_write s

/-- The loop of `iter_write`: `for d in (&mut iter).take(self.max_size)`.
Consumes at most `n` elements from the list, writing each one, and returns the
final storage together with the not-yet-consumed remainder of the input. -/
def iter_write_loop {T : Type} (s : RingBufferStorage T) : Nat → List T → RingBufferStorage T × List T
  | 0, rest => (s, rest)
  | _ + 1, [] => (s, [])
  | n + 1, d :: rest => iter_write_loop (single_write s d) n rest

/-- `RingBufferStorage::iter_write`.  Writes up to `max_size` elements, then
pulls one more element from the iterator to decide success: if the iterator is
exhausted the call succeeds, otherwise that probe element is discarded and
`TooLargeWrite` is returned.  The third component is what remains un-consumed
in the input iterator. -/
def iter_write {T : Type} (s : RingBufferStorage T) (l : List T) :
    RingBufferStorage T × Except RBError Unit × List T :=
  let p := iter_write_loop s s.max_size l
  match p.2 with
  | [] => (p.1, Except.ok (), [])
  | _ :: rest => (p.1, Except.error RBError.TooLargeWrite, rest)

/-- `RingBufferStorage::drain_vec_write`: `self.iter_write(data.drain(..))`.
`Vec::drain(..)` removes every element from the vector when the `Drain` guard
is dropped, even those the iterator never yielded, so the input vector is left
empty in all cases.  The third component is the final contents of the input
vector. -/
def drain_vec_write {T : Type} (s : RingBufferStorage T) (v : List T) :
    RingBufferStorage T × Except RBError Unit × List T :=
  let p := iter_write s v
  (p.1, p.2.1, [])

/-- `RingBufferStorage::new_reader_id`: snapshot of the current write position
and write counter, tagged with the element type (`TypeId::of::<T>()`, modelled
as the `Nat` parameter `tag`). -/
def new_reader_id {T : Type} (tag : Nat) (s : RingBufferStorage T) : ReaderId :=
  { t := tag, read_index := s.write_index, written := s.written }

/-- The `num_written` computation at the top of `RingBufferStorage::read`. -/
def num_written {T : Type} (s : RingBufferStorage T) (r : ReaderId) : Nat :=
  if s.written < r.written then s.written + (s.reset_written - r.written)
  else s.written - r.written

/-- State of `StorageIterator` (the storage reference is passed separately to
`collect`). -/
structure StorageIterator where
  current : Nat
  end_idx : Nat
  started : Bool
deriving DecidableEq, Repr

/-- Read outcomes (`ReadData` in the source): a normal view, or an overflow
view with the count of lost elements. -/
inductive ReadData where
  | Data (it : StorageIterator)
  | Overflow (it : StorageIterator) (lost : Nat)
deriving DecidableEq, Repr

/-- `RingBufferStorage::read`.  Checks the type tag, computes `num_written`,
unconditionally resynchronises the cursor, and returns either the overflow
view over the whole buffer starting at `write_index` or the normal view from
the cursor's old position to `write_index`. -/
def read {T : Type} (tag : Nat) (s : RingBufferStorage T) (r : ReaderId) :
    Except RBError (ReadData × ReaderId) :=
  if r.t ≠ tag then Except.error RBError.InvalidReader
  else
    let n := num_written s r
    let r' : ReaderId := { t := r.t, read_index := s.write_index, written := s.written }
    if s.max_size < n then
      Except.ok (ReadData.Overflow
        { current := s.write_index, end_idx := s.write_index, started := false }
        (n - s.max_size), r')
    else
      Except.ok (ReadData.Data
        { current := r.read_index, end_idx := s.write_index, started := n == 0 }, r')

/-- One `next()` step of `StorageIterator` followed by the rest of the
traversal, with explicit fuel.  `none` means either an out-of-bounds index
(the `&self.storage[self.current]` access would panic) or fuel exhaustion;
for every view produced by `read` on reachable states the result is `some`. -/
def collectAux {T : Type} (d : List T) : Nat → Nat → Nat → Bool → Option (List T)
  | 0, _, _, _ => none
  | fuel + 1, cur, e, st =>
    if st = true ∧ cur = e then some []
    else
      match d.get? cur with
      | none => none
      | some x =>
        let cur1 := cur + 1
        let cur2 := if cur1 = d.length ∧ e ≠ d.length then 0 else cur1
        (collectAux d fuel cur2 e true).map (fun l => x :: l)

/-- Run a `StorageIterator` to completion over a storage's backing store. -/
def collect {T : Type} (s : RingBufferStorage T) (it : StorageIterator) (fuel : Nat) :
    Option (List T) :=
  collectAux s.data fuel it.current it.end_idx it.started

/-- The buffer contents in circular order starting at index `i`. -/
def circFrom {T : Type} (d : List T) (i : Nat) : List T :=
  d.drop i ++ d.take i

/-- The view contained in a read outcome. -/
def outIter : ReadData → StorageIterator
  | ReadData.Data it => it
  | ReadData.Overflow it _ => it

/-- The view produced by a `read`, when the read succeeds. -/
def readView {T : Type} (tag : Nat) (s : RingBufferStorage T) (r : ReaderId) :
    Option StorageIterator :=
  match read tag s r with
  | Except.ok (out, _) => some (outIter out)
  | Except.error _ => none

/-- Fully traversing the view produced by a `read`. -/
def readViewCollect {T : Type} (tag : Nat) (s : RingBufferStorage T) (r : ReaderId) :
    Option (List T) :=
  (readView tag s r).bind (fun it => collect s it (s.data.length + 1))

/-- Whether an `Except` value is a success. -/
def exceptOk {ε α : Type} : Except ε α → Bool
  | Except.ok _ => true
  | Except.error _ => false

/-- Storage states reachable from construction by write operations
(`iter_write` and `drain_vec_write` are folds of `single_write`, so the single
constructor covers all write paths; `read` does not mutate the storage). -/
inductive ReachS {T : Type} : RingBufferStorage T → Prop
  | new (C : Nat) : ReachS (RingBufferStorage.new T C)
  | write (s : RingBufferStorage T) (d : T) : ReachS s → ReachS (single_write s d)

/-- Storage-and-cursor pairs reachable by the API: a cursor is created on a
reachable storage, survives writes, and is resynchronised by reads. -/
inductive ReachP {T : Type} (tag : Nat) : RingBufferStorage T → ReaderId → Prop
  | create (s : RingBufferStorage T) : ReachS s → ReachP tag s (new_reader_id tag s)
  | write (s : RingBufferStorage T) (r : ReaderId) (d : T) :
      ReachP tag s r → ReachP tag (single_write s d) r
  | readStep (s : RingBufferStorage T) (r : ReaderId) (out : ReadData) (r' : ReaderId) :
      ReachP tag s r → read tag s r = Except.ok (out, r') → ReachP tag s r'

/-- Structural invariant of reachable storages. -/
def InvS {T : Type} (s : RingBufferStorage T) : Prop :=
  s.reset_written = s.max_size * 1000 ∧
  s.write_index ≤ s.data.length ∧
  (0 < s.max_size → s.data.length ≤ s.max_size ∧ s.write_index < s.max_size) ∧
  (s.max_size = 0 → s.write_index = 0 ∧ s.written = 0 ∧ s.data.length ≤ 1) ∧
  s.written ≤ s.reset_written ∧
  (s.data.length < s.max_size → s.write_index = s.data.length ∧ s.written = s.data.length)

/-- Invariant of reachable storage-and-cursor pairs. -/
def InvP {T : Type} (tag : Nat) (s : RingBufferStorage T) (r : ReaderId) : Prop :=
  InvS s ∧
  r.t = tag ∧
  r.read_index ≤ s.data.length ∧
  (0 < s.max_size → r.read_index < s.max_size) ∧
  (s.max_size = 0 → r.read_index = 0 ∧ r.written = 0) ∧
  (s.data.length < s.max_size → r.read_index = r.written ∧ r.written ≤ s.written) ∧
  r.written ≤ s.reset_written

/-! ## Basic facts about the write path -/

theorem single_write_max_size {T : Type} (s : RingBufferStorage T) (d : T) :
    (single_write s d).max_size = s.max_size := rfl

theorem single_write_reset_written {T : Type} (s : RingBufferStorage T) (d : T) :
    (single_write s d).reset_written = s.reset_written := rfl

theorem writeAll_cons {T : Type} (s : RingBufferStorage T) (x : T) (l : List T) :
    writeAll s (x :: l) = writeAll (single_write s x) l := rfl

theorem writeAll_append_singleton {T : Type} (s : RingBufferStorage T) (l : List T) (x : T) :
    writeAll s (l ++ [x]) = single_write (writeAll s l) x := by
  simp [writeAll, List.foldl_append]

theorem writeAll_max_size {T : Type} (l : List T) (s : RingBufferStorage T) :
    (writeAll s l).max_size = s.max_size := by
  induction l generalizing s with
  | nil => rfl
  | cons x l ih => rw [writeAll_cons, ih, single_write_max_size]

theorem writeAll_reset_written {T : Type} (l : List T) (s : RingBufferStorage T) :
    (writeAll s l).reset_written = s.reset_written := by
  induction l generalizing s with
  | nil => rfl
  | cons x l ih => rw [writeAll_cons, ih, single_write_reset_written]

theorem single_write_written {T : Type} (s : RingBufferStorage T) (d : T)
    (h : s.written ≤ s.reset_written) :
    (single_write s d).written = (s.written + 1) % (s.reset_written + 1) := by
  show (if s.reset_written < s.written + 1 then 0 else s.written + 1) = _
  split
  · have : s.written + 1 = s.reset_written + 1 := by omega
    rw [this, Nat.mod_self]
  · rw [Nat.mod_eq_of_lt (by omega)]

theorem writeAll_written {T : Type} (l : List T) (s : RingBufferStorage T)
    (h : s.written ≤ s.reset_written) :
    (writeAll s l).written = (s.written + l.length) % (s.reset_written + 1) := by
  induction l generalizing s with
  | nil => simpa [writeAll] using (Nat.mod_eq_of_lt (by omega)).symm
  | cons x l ih =>
    rw [writeAll_cons, ih (single_write s x)
        (by rw [single_write_written s x h, single_write_reset_written]
            exact Nat.le_of_lt_succ (Nat.mod_lt _ (by omega)))]
    rw [single_write_written s x h, single_write_reset_written, Nat.mod_add_mod]
    congr 1
    simp
    omega

theorem single_write_write_index {T : Type} (s : RingBufferStorage T) (d : T)
    (h0 : 0 < s.max_size) (h : s.write_index < s.max_size) :
    (single_write s d).write_index = (s.write_index + 1) % s.max_size := by
  show (if s.max_size ≤ s.write_index + 1 then 0 else s.write_index + 1) = _
  split
  · have : s.write_index + 1 = s.max_size := by omega
    rw [this, Nat.mod_self]
  · rw [Nat.mod_eq_of_lt (by omega)]

theorem writeAll_write_index {T : Type} (l : List T) (s : RingBufferStorage T)
    (h0 : 0 < s.max_size) (h : s.write_index < s.max_size) :
    (writeAll s l).write_index = (s.write_index + l.length) % s.max_size := by
  induction l generalizing s with
  | nil => simpa [writeAll] using (Nat.mod_eq_of_lt (by omega)).symm
  | cons x l ih =>
    rw [writeAll_cons, ih (single_write s x)
        (by rw [single_write_max_size]; exact h0)
        (by rw [single_write_write_index s x h0 h, single_write_max_size]
            exact Nat.mod_lt _ h0)]
    rw [single_write_write_index s x h0 h, single_write_max_size, Nat.mod_add_mod]
    congr 1
    simp
    omega

/-! ## Traversal of `StorageIterator` -/

theorem collectAux_forward {T : Type} (d : List T) (fuel : Nat) :
    ∀ (cur : Nat) (st : Bool) (e : Nat), cur ≤ e → e ≤ d.length → (st = false → cur < e) →
      e - cur < fuel →
      collectAux d fuel cur e st = some ((d.drop cur).take (e - cur)) := by
  induction fuel with
  | zero => intro cur st e _ _ _ h4; omega
  | succ f ih =>
    intro cur st e h1 h2 h3 h4
    by_cases hend : st = true ∧ cur = e
    · have h0 : e - cur = 0 := by omega
      simp [collectAux, hend.1, hend.2, h0]
    · have hcur : cur < e := by
        rcases Nat.lt_or_ge cur e with h | h
        · exact h
        · have hce : cur = e := by omega
          cases st with
          | false => exact h3 rfl
          | true => exact absurd ⟨rfl, hce⟩ hend
      have hlt : cur < d.length := by omega
      have hget : d.get? cur = some (d.get ⟨cur, hlt⟩) := by
        rw [List.get?_eq_getElem?, List.getElem?_eq_getElem hlt]
        rfl
      have hwrap : ¬(cur + 1 = d.length ∧ e ≠ d.length) := by omega
      rw [collectAux, if_neg hend, hget]
      simp only [if_neg hwrap]
      rw [ih (cur + 1) true e (by omega) h2 (by simp) (by omega)]
      have hdrop : d.drop cur = d.get ⟨cur, hlt⟩ :: d.drop (cur + 1) := by
        rw [← List.getElem_cons_drop d cur hlt]
        rfl
      have htake : e - cur = (e - (cur + 1)) + 1 := by omega
      rw [hdrop, htake, List.take_succ_cons]
      rfl

theorem collectAux_wrap {T : Type} (d : List T) (fuel : Nat) :
    ∀ (cur : Nat) (st : Bool) (e : Nat), e ≤ cur → cur < d.length → e < d.length →
      (st = true → e < cur) → d.length - cur + e < fuel →
      collectAux d fuel cur e st = some (d.drop cur ++ d.take e) := by
  induction fuel with
  | zero => intro cur st e _ h2 _ _ h5; omega
  | succ f ih =>
    intro cur st e h1 h2 h3 h4 h5
    have hend : ¬(st = true ∧ cur = e) := by
      rintro ⟨hst, hce⟩
      have := h4 hst
      omega
    have hget : d.get? cur = some (d.get ⟨cur, h2⟩) := by
      rw [List.get?_eq_getElem?, List.getElem?_eq_getElem h2]
      rfl
    have hdrop : d.drop cur = d.get ⟨cur, h2⟩ :: d.drop (cur + 1) := by
      rw [← List.getElem_cons_drop d cur h2]
      rfl
    rw [collectAux, if_neg hend, hget]
    by_cases hw : cur + 1 = d.length
    · have hcond : cur + 1 = d.length ∧ e ≠ d.length := ⟨hw, by omega⟩
      simp only [if_pos hcond]
      rw [collectAux_forward d f 0 true e (by omega) (by omega) (by simp) (by omega)]
      have : d.drop (cur + 1) = [] := by
        rw [hw]
        exact List.drop_length d
      rw [hdrop, this]
      simp
    · have hcond : ¬(cur + 1 = d.length ∧ e ≠ d.length) := by omega
      simp only [if_neg hcond]
      rw [ih (cur + 1) true e (by omega) (by omega) h3 (by omega) (by omega)]
      rw [hdrop]
      rfl

/-- `collect` over an already-finished (`started`, `current = end`) view. -/
theorem collect_empty_view {T : Type} (s : RingBufferStorage T) (i fuel : Nat) :
    collect s { current := i, end_idx := i, started := true } (fuel + 1) = some [] := by
  simp [collect, collectAux]

/-! ## Contents of the buffer after a sequence of single writes -/

theorem circFrom_zero {T : Type} (d : List T) : circFrom d 0 = d := by
  simp [circFrom]

/-- Overwriting the slot at `i` and advancing the start of the circular view
drops the oldest surviving element and appends the new one. -/
theorem circFrom_set {T : Type} (d : List T) (i : Nat) (x : T) (h : i < d.length) :
    circFrom (d.set i x) ((i + 1) % d.length) = (circFrom d i).drop 1 ++ [x] := by
  have hset : d.set i x = d.take i ++ x :: d.drop (i + 1) := by
    rw [List.set_eq_take_append_cons_drop, if_pos h]
  have hdropi : d.drop i = d.get ⟨i, h⟩ :: d.drop (i + 1) := by
    rw [← List.getElem_cons_drop d i h]
    rfl
  have hlen_take : (d.take i).length = i := by
    rw [List.length_take]
    omega
  have hrhs : (circFrom d i).drop 1 ++ [x] = d.drop (i + 1) ++ (d.take i ++ [x]) := by
    rw [circFrom, hdropi, List.cons_append, List.drop_succ_cons, List.drop_zero,
      List.append_assoc]
  by_cases hw : i + 1 < d.length
  · rw [Nat.mod_eq_of_lt hw, hrhs, circFrom]
    have h1 : List.drop (i + 1) (d.set i x) = d.drop (i + 1) := by
      rw [List.drop_set, if_pos (by omega)]
    have h2 : List.take (i + 1) (d.set i x) = d.take i ++ [x] := by
      rw [hset]
      rw [show i + 1 = (d.take i).length + 1 by rw [hlen_take], List.take_append]
      simp
    rw [h1, h2]
  · have hi1 : i + 1 = d.length := by omega
    have hmod : (i + 1) % d.length = 0 := by
      rw [hi1, Nat.mod_self]
    have hdrop_nil : d.drop (i + 1) = [] := by
      rw [hi1]
      exact List.drop_length d
    rw [hmod, circFrom_zero, hrhs, hdrop_nil, hset, hdrop_nil]
    simp

/-- Exact state of a fresh buffer of positive capacity `C` after writing the
list `l` (no counter rebase as long as `l.length ≤ C * 1000`): the counter and
write position, the stored data when `l` fits, and the circular contents --
the last `C` values of `l` -- once the buffer has wrapped. -/
theorem writeAll_new_spec {T : Type} (C : Nat) (hC : 0 < C) (l : List T)
    (hlen : l.length ≤ C * 1000) :
    (writeAll (RingBufferStorage.new T C) l).max_size = C ∧
    (writeAll (RingBufferStorage.new T C) l).reset_written = C * 1000 ∧
    (writeAll (RingBufferStorage.new T C) l).written = l.length ∧
    (writeAll (RingBufferStorage.new T C) l).write_index = l.length % C ∧
    (l.length ≤ C → (writeAll (RingBufferStorage.new T C) l).data = l) ∧
    (C ≤ l.length →
      (writeAll (RingBufferStorage.new T C) l).data.length = C ∧
      circFrom (writeAll (RingBufferStorage.new T C) l).data (l.length % C) =
        l.drop (l.length - C)) := by
  refine ⟨writeAll_max_size l _, writeAll_reset_written l _, ?_, ?_, ?_⟩
  · rw [writeAll_written l _ (by simp [RingBufferStorage.new])]
    show (0 + l.length) % (C * 1000 + 1) = l.length
    rw [Nat.zero_add, Nat.mod_eq_of_lt (by omega)]
  · rw [writeAll_write_index l _ (by simpa [RingBufferStorage.new] using hC)
      (by simpa [RingBufferStorage.new] using hC)]
    simp [RingBufferStorage.new]
  · induction l using List.reverseRecOn with
    | nil =>
      refine ⟨fun _ => rfl, fun h => ?_⟩
      simp at h
      omega
    | append_singleton l x ih =>
      have hlen' : l.length ≤ C * 1000 := by
        simp at hlen ⊢
        omega
      obtain ⟨ih1, ih2⟩ := ih hlen'
      have hwi : (writeAll (RingBufferStorage.new T C) l).write_index = l.length % C := by
        rw [writeAll_write_index l _ (by simpa [RingBufferStorage.new] using hC)
          (by simpa [RingBufferStorage.new] using hC)]
        simp [RingBufferStorage.new]
      have hmax : (writeAll (RingBufferStorage.new T C) l).max_size = C :=
        writeAll_max_size l _
      rw [writeAll_append_singleton]
      rcases Nat.lt_or_ge l.length C with hfit | hfull
      · -- the buffer has not wrapped yet: the write appends
        have hdata : (writeAll (RingBufferStorage.new T C) l).data = l := ih1 (by omega)
        have hpush : (single_write (writeAll (RingBufferStorage.new T C) l) x).data
            = l ++ [x] := by
          show (if _ = _ then _ else _) = _
          rw [hwi, hdata, Nat.mod_eq_of_lt hfit, if_pos rfl]
        constructor
        · intro _
          exact hpush
        · intro hge
          have hexact : l.length + 1 = C := by
            simp at hge
            omega
          have hlen2 : (l ++ [x]).length = C := by
            simp
            omega
          refine ⟨by rw [hpush, hlen2], ?_⟩
          rw [hpush]
          have : (l ++ [x]).length % C = 0 := by
            rw [hlen2, Nat.mod_self]
          rw [this, circFrom_zero]
          have : (l ++ [x]).length - C = 0 := by
            simp
            omega
          rw [this]
          rfl
      · -- the buffer is full: the write overwrites the slot at `write_index`
        obtain ⟨hflen, hcirc⟩ := ih2 hfull
        have hwi_lt : l.length % C < (writeAll (RingBufferStorage.new T C) l).data.length := by
          rw [hflen]
          exact Nat.mod_lt _ hC
        have hset : (single_write (writeAll (RingBufferStorage.new T C) l) x).data
            = (writeAll (RingBufferStorage.new T C) l).data.set (l.length % C) x := by
          show (if _ = _ then _ else _) = _
          rw [hwi, if_neg (by omega)]
        constructor
        · intro hle
          simp at hle
          omega
        · intro _
          have hlen2 : ((writeAll (RingBufferStorage.new T C) l).data.set (l.length % C) x).length
              = C := by
            rw [List.length_set, hflen]
          refine ⟨by rw [hset, hlen2], ?_⟩
          rw [hset]
          have hmod : (l ++ [x]).length % C = ((l.length % C) + 1) %
              (writeAll (RingBufferStorage.new T C) l).data.length := by
            rw [hflen]
            simp [Nat.mod_add_mod]
          rw [hmod, circFrom_set _ _ _ hwi_lt, hcirc]
          rw [List.drop_drop]
          have hd : (l ++ [x]).length - C = (l.length - C) + 1 := by
            simp
            omega
          rw [hd, List.drop_append_of_le_length (by omega)]

/-! ## Invariants of reachable states -/

theorem invS_new {T : Type} (C : Nat) : InvS (RingBufferStorage.new T C) := by
  refine ⟨rfl, Nat.le_refl 0, ?_, ?_, Nat.zero_le _, ?_⟩ <;> simp [RingBufferStorage.new]

theorem single_write_write_index_eq {T : Type} (s : RingBufferStorage T) (d : T) :
    (single_write s d).write_index =
      if s.max_size ≤ s.write_index + 1 then 0 else s.write_index + 1 := rfl

theorem single_write_written_eq {T : Type} (s : RingBufferStorage T) (d : T) :
    (single_write s d).written =
      if s.reset_written < s.written + 1 then 0 else s.written + 1 := rfl

theorem single_write_data_push {T : Type} (s : RingBufferStorage T) (d : T)
    (hp : s.write_index = s.data.length) : (single_write s d).data = s.data ++ [d] := by
  simp [single_write, hp]

theorem single_write_data_set {T : Type} (s : RingBufferStorage T) (d : T)
    (hp : s.write_index ≠ s.data.length) :
    (single_write s d).data = s.data.set s.write_index d := by
  simp [single_write, hp]

theorem invS_single_write {T : Type} (s : RingBufferStorage T) (d : T) (h : InvS s) :
    InvS (single_write s d) := by
  obtain ⟨h1, h2, h3, h4, h5, h6⟩ := h
  unfold InvS
  rw [single_write_max_size, single_write_reset_written, single_write_write_index_eq,
    single_write_written_eq]
  by_cases hp : s.write_index = s.data.length
  · rw [show (single_write s d).data.length = s.data.length + 1 by
      rw [single_write_data_push s d hp]; simp]
    split_ifs <;> omega
  · rw [show (single_write s d).data.length = s.data.length by
      rw [single_write_data_set s d hp]; simp]
    have hnotfit : ¬ s.data.length < s.max_size := fun hfit => hp (h6 hfit).1
    split_ifs <;> omega

theorem reachS_invS {T : Type} {s : RingBufferStorage T} (h : ReachS s) : InvS s := by
  induction h with
  | new C => exact invS_new C
  | write s d _ ih => exact invS_single_write s d ih

/-- Shape of the cursor returned by a successful `read`. -/
theorem read_ok_cursor {T : Type} {tag : Nat} {s : RingBufferStorage T} {r : ReaderId}
    {out : ReadData} {r' : ReaderId} (h : read tag s r = Except.ok (out, r')) :
    r.t = tag ∧ r' = { t := tag, read_index := s.write_index, written := s.written } := by
  by_cases ht : r.t = tag
  · refine ⟨ht, ?_⟩
    rw [read, if_neg (by simpa using ht)] at h
    by_cases hov : s.max_size < num_written s r
    · rw [if_pos hov] at h
      cases h
      rw [← ht]
    · rw [if_neg hov] at h
      cases h
      rw [← ht]
  · rw [read, if_pos (by simpa using ht)] at h
    cases h

theorem invP_create {T : Type} (tag : Nat) (s : RingBufferStorage T) (h : InvS s) :
    InvP tag s (new_reader_id tag s) := by
  obtain ⟨h1, h2, h3, h4, h5, h6⟩ := h
  refine ⟨⟨h1, h2, h3, h4, h5, h6⟩, rfl, h2, ?_, ?_, ?_, h5⟩
  · intro hpos
    exact (h3 hpos).2
  · intro h0
    exact ⟨(h4 h0).1, (h4 h0).2.1⟩
  · intro hfit
    exact ⟨((h6 hfit).1).trans ((h6 hfit).2).symm, Nat.le_refl _⟩

theorem invP_single_write {T : Type} {tag : Nat} {s : RingBufferStorage T} {r : ReaderId}
    (d : T) (h : InvP tag s r) : InvP tag (single_write s d) r := by
  obtain ⟨hs, ht, hr1, hr2, hr3, hr4, hr5⟩ := h
  obtain ⟨h1, h2, h3, h4, h5, h6⟩ := hs
  refine ⟨invS_single_write s d ⟨h1, h2, h3, h4, h5, h6⟩, ht, ?_⟩
  show _ ≤ _ ∧ _
  rw [single_write_max_size, single_write_reset_written, single_write_written_eq]
  by_cases hp : s.write_index = s.data.length
  · rw [show (single_write s d).data.length = s.data.length + 1 by
      rw [single_write_data_push s d hp]; simp]
    split_ifs <;> omega
  · rw [show (single_write s d).data.length = s.data.length by
      rw [single_write_data_set s d hp]; simp]
    have hnotfit : ¬ s.data.length < s.max_size := fun hfit => hp (h6 hfit).1
    split_ifs <;> omega

theorem invP_read {T : Type} {tag : Nat} {s : RingBufferStorage T} {r : ReaderId}
    {out : ReadData} {r' : ReaderId} (h : InvP tag s r)
    (hread : read tag s r = Except.ok (out, r')) : InvP tag s r' := by
  obtain ⟨hs, _, _, _, _, _, _⟩ := h
  have hr' := (read_ok_cursor hread).2
  obtain ⟨h1, h2, h3, h4, h5, h6⟩ := hs
  subst hr'
  refine ⟨⟨h1, h2, h3, h4, h5, h6⟩, rfl, h2, ?_, ?_, ?_, h5⟩
  · intro hpos
    exact (h3 hpos).2
  · intro h0
    exact ⟨(h4 h0).1, (h4 h0).2.1⟩
  · intro hfit
    exact ⟨((h6 hfit).1).trans ((h6 hfit).2).symm, Nat.le_refl _⟩

theorem reachP_invP {T : Type} {tag : Nat} {s : RingBufferStorage T} {r : ReaderId}
    (h : ReachP tag s r) : InvP tag s r := by
  induction h with
  | create s hs => exact invP_create tag s (reachS_invS hs)
  | write s r d _ ih => exact invP_single_write d ih
  | readStep s r out r' _ hread ih => exact invP_read ih hread

/-! ## Reads on reachable states: success and in-bounds traversal -/

theorem read_collect_of_invP {T : Type} {tag : Nat} {s : RingBufferStorage T} {r : ReaderId}
    (h : InvP tag s r) :
    s.write_index ≤ s.data.length ∧ exceptOk (read tag s r) = true ∧
      (readViewCollect tag s r).isSome = true := by
  obtain ⟨⟨h1, h2, h3, h4, h5, h6⟩, ht, hr1, hr2, hr3, hr4, hr5⟩ := h
  have htag : ¬(r.t ≠ tag) := by simpa using ht
  have hnum0 : s.max_size = 0 → num_written s r = 0 := by
    intro h0
    rw [num_written, (h4 h0).2.1, (hr3 h0).2]
    simp
  have hnum_fit : s.data.length < s.max_size → num_written s r = s.data.length - r.written := by
    intro hfit
    obtain ⟨he, hle⟩ := hr4 hfit
    obtain ⟨hwl, hwr⟩ := h6 hfit
    rw [num_written, if_neg (by omega), hwr]
  by_cases hov : s.max_size < num_written s r
  · -- overflow branch
    have hCpos : 0 < s.max_size := by
      rcases Nat.eq_zero_or_pos s.max_size with h0 | h0
      · rw [hnum0 h0] at hov
        omega
      · exact h0
    have hfull : s.data.length = s.max_size := by
      by_contra hne
      have hfit : s.data.length < s.max_size := by
        have := (h3 hCpos).1
        omega
      rw [hnum_fit hfit] at hov
      omega
    have hwi : s.write_index < s.data.length := by
      rw [hfull]
      exact (h3 hCpos).2
    have hread : read tag s r = Except.ok
        (ReadData.Overflow { current := s.write_index, end_idx := s.write_index, started := false }
          (num_written s r - s.max_size),
         { t := r.t, read_index := s.write_index, written := s.written }) := by
      rw [read, if_neg htag, if_pos hov]
    have hview : readView tag s r =
        some { current := s.write_index, end_idx := s.write_index, started := false } := by
      rw [readView, hread]
      rfl
    have hcoll : collect s { current := s.write_index, end_idx := s.write_index, started := false }
        (s.data.length + 1) = some (s.data.drop s.write_index ++ s.data.take s.write_index) := by
      rw [collect]
      exact collectAux_wrap s.data (s.data.length + 1) s.write_index false s.write_index
        (Nat.le_refl _) hwi hwi (by simp) (by omega)
    refine ⟨h2, by rw [hread]; rfl, ?_⟩
    rw [readViewCollect, hview]
    show (collect s _ _).isSome = true
    rw [hcoll]
    rfl
  · -- normal branch
    have hread : read tag s r = Except.ok
        (ReadData.Data ⟨r.read_index, s.write_index, num_written s r == 0⟩,
          ⟨r.t, s.write_index, s.written⟩) := by
      rw [read, if_neg htag, if_neg hov]
    have hview : readView tag s r =
        some ⟨r.read_index, s.write_index, num_written s r == 0⟩ := by
      rw [readView, hread]
      rfl
    refine ⟨h2, by rw [hread]; rfl, ?_⟩
    rw [readViewCollect, hview]
    show (collect s _ _).isSome = true
    rw [collect]
    rcases Nat.lt_trichotomy r.read_index s.write_index with hab | hab | hab
    · rw [collectAux_forward s.data (s.data.length + 1) r.read_index _ s.write_index
        (by omega) h2 (fun _ => hab) (by omega)]
      rfl
    · by_cases hn : num_written s r = 0
      · rw [collectAux_forward s.data (s.data.length + 1) r.read_index _ s.write_index
          (by omega) h2 (by simp [hn]) (by omega)]
        rfl
      · -- a full lap: the buffer must be full and the start index in bounds
        have hCpos : 0 < s.max_size := by
          rcases Nat.eq_zero_or_pos s.max_size with h0 | h0
          · exact absurd (hnum0 h0) hn
          · exact h0
        have hfull : s.data.length = s.max_size := by
          by_contra hne
          have hfit : s.data.length < s.max_size := by
            have := (h3 hCpos).1
            omega
          obtain ⟨hwl, hwr⟩ := h6 hfit
          obtain ⟨he, hle⟩ := hr4 hfit
          rw [hnum_fit hfit] at hn
          apply hn
          omega
        have hwi : s.write_index < s.data.length := by
          rw [hfull]
          exact (h3 hCpos).2
        rw [hab, collectAux_wrap s.data (s.data.length + 1) s.write_index _ s.write_index
          (Nat.le_refl _) hwi hwi (by simp [hn]) (by omega)]
        rfl
    · have hCpos : 0 < s.max_size := by
        rcases Nat.eq_zero_or_pos s.max_size with h0 | h0
        · have := (hr3 h0).1
          omega
        · exact h0
      have halen : r.read_index < s.data.length := by
        rcases Nat.lt_or_ge r.read_index s.data.length with hlt | hge
        · exact hlt
        · exfalso
          have haeq : r.read_index = s.data.length := by omega
          have hfit : s.data.length < s.max_size := by
            have := hr2 hCpos
            omega
          have := (h6 hfit).1
          omega
      rw [collectAux_wrap s.data (s.data.length + 1) r.read_index _ s.write_index
        (by omega) halen (by omega) (fun _ => hab) (by omega)]
      rfl

/-! ## The bulk write path -/

theorem iter_write_loop_spec {T : Type} (n : Nat) (l : List T) (s : RingBufferStorage T) :
    iter_write_loop s n l = ((l.take n).foldl single_write s, l.drop n) := by
  induction n generalizing l s with
  | zero => simp [iter_write_loop]
  | succ n ih =>
    cases l with
    | nil => simp [iter_write_loop]
    | cons d rest =>
      rw [iter_write_loop, ih rest (single_write s d), List.take_succ_cons,
        List.drop_succ_cons]
      rfl

/-- C4: bulk writes of at most `max_size` elements write everything and
succeed; longer inputs write exactly the first `max_size` elements through the
single-write path and report `TooLargeWrite`, writing none of the rest. -/
theorem iter_write_bounded {T : Type} (s : RingBufferStorage T) (l : List T) :
    (l.length ≤ s.max_size → iter_write s l = (writeAll s l, Except.ok (), [])) ∧
    (s.max_size < l.length →
      iter_write s l = (writeAll s (l.take s.max_size), Except.error RBError.TooLargeWrite,
        l.drop (s.max_size + 1))) := by
  constructor
  · intro hle
    rw [iter_write, iter_write_loop_spec, List.take_of_length_le hle,
      List.drop_eq_nil_of_le hle]
    rfl
  · intro hgt
    have hcons : l.drop s.max_size = l.get ⟨s.max_size, hgt⟩ :: l.drop (s.max_size + 1) := by
      rw [← List.getElem_cons_drop l s.max_size hgt]
      rfl
    rw [iter_write, iter_write_loop_spec]
    rw [show (l.take s.max_size).foldl single_write s = writeAll s (l.take s.max_size) from rfl]
    rw [hcons]

/-- C4 witness: capacity 2, a fitting write and an overlong write. -/
theorem iter_write_bounded_witness :
    (iter_write (RingBufferStorage.new Nat 2) [1, 2] =
      (writeAll (RingBufferStorage.new Nat 2) [1, 2], Except.ok (), [])) ∧
    (iter_write (RingBufferStorage.new Nat 2) [1, 2, 3, 4] =
      (writeAll (RingBufferStorage.new Nat 2) [1, 2], Except.error RBError.TooLargeWrite, [4])) :=
  ⟨(iter_write_bounded (RingBufferStorage.new Nat 2) [1, 2]).1 (by decide),
   (iter_write_bounded (RingBufferStorage.new Nat 2) [1, 2, 3, 4]).2 (by decide)⟩

/-- C10: `iter_write` consumes exactly `min n (max_size + 1)` input elements:
the leftover input is `l.drop (max_size + 1)`, and the element at position
`max_size`, when present, is consumed to probe for overflow but never stored. -/
theorem iter_write_consumption {T : Type} (s : RingBufferStorage T) (l : List T) :
    (iter_write s l).2.2 = l.drop (s.max_size + 1) ∧
    l.length - ((iter_write s l).2.2).length = min l.length (s.max_size + 1) ∧
    (iter_write s l).1 = writeAll s (l.take s.max_size) := by
  rcases Nat.lt_or_ge s.max_size l.length with hgt | hle
  · have hcons : l.drop s.max_size = l.get ⟨s.max_size, hgt⟩ :: l.drop (s.max_size + 1) := by
      rw [← List.getElem_cons_drop l s.max_size hgt]
      rfl
    have h1 : (iter_write s l).2.2 = l.drop (s.max_size + 1) := by
      rw [iter_write, iter_write_loop_spec, hcons]
    refine ⟨h1, ?_, ?_⟩
    · rw [h1, List.length_drop]
      omega
    · rw [iter_write, iter_write_loop_spec, hcons]
      rfl
  · have h1 : (iter_write s l).2.2 = l.drop (s.max_size + 1) := by
      rw [iter_write, iter_write_loop_spec, List.drop_eq_nil_of_le hle,
        List.drop_eq_nil_of_le (by omega)]
    refine ⟨h1, ?_, ?_⟩
    · rw [h1, List.drop_eq_nil_of_le (by omega)]
      simp
      omega
    · rw [iter_write, iter_write_loop_spec, List.drop_eq_nil_of_le hle,
        List.take_of_length_le hle]
      rfl

/-- C9: the draining bulk write leaves the input vector empty in every case
(`Vec::drain(..)` removes all elements when dropped), while storage and result
agree with `iter_write`. -/
theorem drain_vec_write_drains {T : Type} (s : RingBufferStorage T) (v : List T) :
    (drain_vec_write s v).2.2 = [] ∧
    (drain_vec_write s v).1 = (iter_write s v).1 ∧
    (drain_vec_write s v).2.1 = (iter_write s v).2.1 :=
  ⟨rfl, rfl, rfl⟩

/-! ## Reading back written data -/

/-- C1: with capacity `C ≥ 1`, writing `n ≤ C` values after creating a cursor
on a fresh buffer and then reading with that cursor yields the normal
(non-overflow) outcome whose view contains exactly those values in write
order. -/
theorem read_back_in_order {T : Type} (tag C : Nat) (hC : 0 < C) (l : List T)
    (hfit : l.length ≤ C) :
    read tag (writeAll (RingBufferStorage.new T C) l)
        (new_reader_id tag (RingBufferStorage.new T C)) =
      Except.ok (ReadData.Data ⟨0, l.length % C, l.length == 0⟩, ⟨tag, l.length % C, l.length⟩) ∧
    collect (writeAll (RingBufferStorage.new T C) l) ⟨0, l.length % C, l.length == 0⟩
        (l.length + 1) = some l := by
  obtain ⟨hmax, hreset, hwritten, hwi, hdata, -⟩ :=
    writeAll_new_spec C hC l (by omega)
  have hdl : (writeAll (RingBufferStorage.new T C) l).data = l := hdata hfit
  have hnum : num_written (writeAll (RingBufferStorage.new T C) l)
      (new_reader_id tag (RingBufferStorage.new T C)) = l.length := by
    rw [num_written, hwritten]
    simp [new_reader_id, RingBufferStorage.new]
  constructor
  · rw [read, if_neg (by simp [new_reader_id])]
    simp only [hnum]
    rw [if_neg (by rw [hmax]; omega), hwi, hwritten]
    rfl
  · rw [collect, hdl]
    show collectAux l (l.length + 1) 0 (l.length % C) (l.length == 0) = some l
    rcases Nat.eq_zero_or_pos l.length with h0 | hpos
    · have hl : l = [] := List.length_eq_zero.mp h0
      subst hl
      simp [collectAux]
    · rcases Nat.lt_or_ge l.length C with hlt | hge
      · rw [Nat.mod_eq_of_lt hlt]
        rw [collectAux_forward l (l.length + 1) 0 _ l.length (by omega) (by omega)
          (fun _ => hpos) (by omega)]
        simp
      · have hexact : l.length = C := by omega
        have hmod : l.length % C = 0 := by
          rw [hexact, Nat.mod_self]
        rw [hmod]
        rw [collectAux_wrap l (l.length + 1) 0 _ 0 (Nat.le_refl 0) (by omega) (by omega)
          (by intro hst; simp only [beq_iff_eq] at hst; omega) (by omega)]
        simp

/-- C1 witness: capacity 3, two writes, read returns them in order. -/
theorem read_back_in_order_witness :
    0 < 3 ∧ ([5, 6] : List Nat).length ≤ 3 ∧
    (read 0 (writeAll (RingBufferStorage.new Nat 3) [5, 6])
        (new_reader_id 0 (RingBufferStorage.new Nat 3)) =
      Except.ok (ReadData.Data ⟨0, 2, false⟩, ⟨0, 2, 2⟩) ∧
     collect (writeAll (RingBufferStorage.new Nat 3) [5, 6]) ⟨0, 2, false⟩ 3 = some [5, 6]) :=
  ⟨by decide, by decide, read_back_in_order 0 3 (by decide) [5, 6] (by decide)⟩

/-- C2: with capacity `C ≥ 1`, creating a cursor and then performing
`k > C` single writes (few enough that the counter is not rebased) makes the
next read report the overflow outcome with lost count `k - C`, whose view is
the whole buffer in circular order from `write_index`: the last `C` written
values in write order. -/
theorem read_overflow_lapping {T : Type} (tag C : Nat) (hC : 0 < C) (l : List T)
    (hover : C < l.length) (hnoreb : l.length ≤ C * 1000) :
    read tag (writeAll (RingBufferStorage.new T C) l)
        (new_reader_id tag (RingBufferStorage.new T C)) =
      Except.ok (ReadData.Overflow ⟨l.length % C, l.length % C, false⟩ (l.length - C),
        ⟨tag, l.length % C, l.length⟩) ∧
    collect (writeAll (RingBufferStorage.new T C) l) ⟨l.length % C, l.length % C, false⟩
        (C + 1) = some (l.drop (l.length - C)) := by
  obtain ⟨hmax, hreset, hwritten, hwi, -, hfull⟩ := writeAll_new_spec C hC l hnoreb
  obtain ⟨hflen, hcirc⟩ := hfull (Nat.le_of_lt hover)
  have hnum : num_written (writeAll (RingBufferStorage.new T C) l)
      (new_reader_id tag (RingBufferStorage.new T C)) = l.length := by
    rw [num_written, hwritten]
    simp [new_reader_id, RingBufferStorage.new]
  have hmlt : l.length % C < C := Nat.mod_lt _ hC
  constructor
  · rw [read, if_neg (by simp [new_reader_id])]
    simp only [hnum]
    rw [if_pos (by rw [hmax]; omega), hwi, hwritten, hmax]
    rfl
  · rw [collect]
    rw [collectAux_wrap (writeAll (RingBufferStorage.new T C) l).data (C + 1) (l.length % C) _
      (l.length % C) (Nat.le_refl _) (by omega) (by omega) (by simp) (by omega)]
    show some (circFrom (writeAll (RingBufferStorage.new T C) l).data (l.length % C)) = _
    rw [hcirc]

/-- C2 witness: capacity 2, three writes, overflow with one lost element and
the last two values recovered in order. -/
theorem read_overflow_lapping_witness :
    0 < 2 ∧ 2 < ([1, 2, 3] : List Nat).length ∧ ([1, 2, 3] : List Nat).length ≤ 2 * 1000 ∧
    (read 0 (writeAll (RingBufferStorage.new Nat 2) [1, 2, 3])
        (new_reader_id 0 (RingBufferStorage.new Nat 2)) =
      Except.ok (ReadData.Overflow ⟨1, 1, false⟩ 1, ⟨0, 1, 3⟩) ∧
     collect (writeAll (RingBufferStorage.new Nat 2) [1, 2, 3]) ⟨1, 1, false⟩ 3 =
       some [2, 3]) :=
  ⟨by decide, by decide, by decide,
   read_overflow_lapping 0 2 (by decide) [1, 2, 3] (by decide) (by decide)⟩

/-! ## The `num_written` rebase arithmetic (C3)

The counter cycles through `reset_written + 1` values (`0 .. reset_written`),
but the recovery formula in `read` assumes a cycle of `reset_written`, so a
read across a rebase under-counts by one: with capacity 1 the cursor below has
seen exactly one write (`k = 1 ≤ reset_written`), yet `num_written` computes 0
and the read returns an empty normal outcome, silently losing the element. -/

theorem num_written_rebase_bug :
    num_written
        (single_write (writeAll (RingBufferStorage.new Nat 1) (List.replicate 1000 0)) 7)
        (new_reader_id 0 (writeAll (RingBufferStorage.new Nat 1) (List.replicate 1000 0))) = 0 ∧
    read 0 (single_write (writeAll (RingBufferStorage.new Nat 1) (List.replicate 1000 0)) 7)
        (new_reader_id 0 (writeAll (RingBufferStorage.new Nat 1) (List.replicate 1000 0))) =
      Except.ok (ReadData.Data ⟨0, 0, true⟩, ⟨0, 0, 0⟩) ∧
    collect (single_write (writeAll (RingBufferStorage.new Nat 1) (List.replicate 1000 0)) 7)
        ⟨0, 0, true⟩ 1 = some [] := by
  have hmax : (writeAll (RingBufferStorage.new Nat 1) (List.replicate 1000 0)).max_size = 1 :=
    writeAll_max_size _ _
  have hreset : (writeAll (RingBufferStorage.new Nat 1)
      (List.replicate 1000 0)).reset_written = 1000 :=
    writeAll_reset_written _ _
  have hwritten : (writeAll (RingBufferStorage.new Nat 1)
      (List.replicate 1000 0)).written = 1000 := by
    rw [writeAll_written _ _ (by simp [RingBufferStorage.new])]
    simp only [RingBufferStorage.new, List.length_replicate]
  have hwi : (writeAll (RingBufferStorage.new Nat 1)
      (List.replicate 1000 0)).write_index = 0 := by
    rw [writeAll_write_index _ _ (by simp [RingBufferStorage.new])
      (by simp [RingBufferStorage.new])]
    simp only [RingBufferStorage.new, List.length_replicate]
  have hw1 : (single_write (writeAll (RingBufferStorage.new Nat 1)
      (List.replicate 1000 0)) 7).written = 0 := by
    rw [single_write_written_eq, if_pos (by rw [hreset, hwritten]; omega)]
  have hwi1 : (single_write (writeAll (RingBufferStorage.new Nat 1)
      (List.replicate 1000 0)) 7).write_index = 0 := by
    rw [single_write_write_index_eq, if_pos (by rw [hmax, hwi])]
  have hcursor : new_reader_id 0 (writeAll (RingBufferStorage.new Nat 1)
      (List.replicate 1000 0)) = ⟨0, 0, 1000⟩ := by
    rw [new_reader_id, hwi, hwritten]
  have hnum : num_written
      (single_write (writeAll (RingBufferStorage.new Nat 1) (List.replicate 1000 0)) 7)
      (new_reader_id 0 (writeAll (RingBufferStorage.new Nat 1) (List.replicate 1000 0))) = 0 := by
    rw [num_written, hcursor, hw1, single_write_reset_written, hreset]
    simp
  refine ⟨hnum, ?_, ?_⟩
  · rw [read, if_neg (by rw [hcursor]; simp)]
    simp only [hnum]
    rw [if_neg (by rw [single_write_max_size, hmax]; omega)]
    rw [hcursor, hwi1, hw1]
    rfl
  · rw [collect]
    simp [collectAux]

/-! ## The length invariant (C5) -/

/-- C5 counterexample: with capacity 0 the very first write appends (the
store was empty and `write_index = 0 = data.len()`), so the backing store
holds one element while `max_size = 0`: `elements.length ≤ max_size` is not
an invariant for capacity 0, and a write performed when
`elements.length == max_size` appended rather than overwriting. -/
theorem capacity_zero_invariant_counterexample :
    (RingBufferStorage.new Nat 0).data.length = (RingBufferStorage.new Nat 0).max_size ∧
    (single_write (RingBufferStorage.new Nat 0) 7).data.length = 1 ∧
    (single_write (RingBufferStorage.new Nat 0) 7).max_size = 0 ∧
    ¬((single_write (RingBufferStorage.new Nat 0) 7).data.length ≤
        (single_write (RingBufferStorage.new Nat 0) 7).max_size) := by
  refine ⟨rfl, rfl, rfl, ?_⟩
  decide

/-- C5 amended: for every reachable storage, `elements.length ≤ max_size`
holds whenever `max_size ≥ 1`, and once `elements.length = max_size` every
write overwrites the slot at `write_index` instead of appending; for the
degenerate capacity 0 the backing store never holds more than one element. -/
theorem length_invariant_amended {T : Type} (s : RingBufferStorage T) (h : ReachS s) :
    (0 < s.max_size → s.data.length ≤ s.max_size) ∧
    (s.max_size = 0 → s.data.length ≤ 1) ∧
    (s.data.length = s.max_size → 0 < s.max_size → ∀ d : T,
      (single_write s d).data = s.data.set s.write_index d ∧
      (single_write s d).data.length = s.data.length) := by
  obtain ⟨h1, h2, h3, h4, h5, h6⟩ := reachS_invS h
  refine ⟨fun hpos => (h3 hpos).1, fun h0 => (h4 h0).2.2, ?_⟩
  intro hfull hpos d
  have hne : s.write_index ≠ s.data.length := by
    have := (h3 hpos).2
    omega
  refine ⟨single_write_data_set s d hne, ?_⟩
  rw [single_write_data_set s d hne]
  simp

/-- C5 amended witness: a full capacity-1 buffer; the next write overwrites
slot 0 in place. -/
theorem length_invariant_amended_witness :
    (single_write (single_write (RingBufferStorage.new Nat 1) 4) 9).data =
      (single_write (RingBufferStorage.new Nat 1) 4).data.set
        (single_write (RingBufferStorage.new Nat 1) 4).write_index 9 ∧
    (single_write (single_write (RingBufferStorage.new Nat 1) 4) 9).data.length =
      (single_write (RingBufferStorage.new Nat 1) 4).data.length :=
  (length_invariant_amended (single_write (RingBufferStorage.new Nat 1) 4)
      (ReachS.write _ 4 (ReachS.new 1))).2.2 (by decide) (by decide) 9

/-! ## Reads with a caught-up cursor (C6, C8) -/

/-- A read with a cursor that is synchronised with the storage returns the
empty normal outcome. -/
theorem read_synced {T : Type} (tag : Nat) (s : RingBufferStorage T) (r : ReaderId)
    (ht : r.t = tag) (h1 : r.read_index = s.write_index) (h2 : r.written = s.written) :
    read tag s r = Except.ok (ReadData.Data ⟨s.write_index, s.write_index, true⟩,
      ⟨tag, s.write_index, s.written⟩) := by
  have hnum : num_written s r = 0 := by
    rw [num_written, h2]
    simp
  rw [read, if_neg (by simp [ht])]
  simp only [hnum]
  rw [if_neg (by omega), ht, h1]
  rfl

/-- C6: after any successful read the returned cursor is caught up, so a
second read with it and no intervening writes yields the empty normal outcome
(never overflow, never stale data); and a read with an already-caught-up
cursor yields the empty normal outcome and returns the cursor unchanged, so
reading twice in a row with no intervening write is empty both times. -/
theorem read_then_read_empty {T : Type} (tag : Nat) (s : RingBufferStorage T) (r : ReaderId) :
    (∀ out r', read tag s r = Except.ok (out, r') →
      read tag s r' = Except.ok (ReadData.Data ⟨s.write_index, s.write_index, true⟩, r') ∧
      collect s ⟨s.write_index, s.write_index, true⟩ (s.data.length + 1) = some []) ∧
    (r.t = tag → r.read_index = s.write_index → r.written = s.written →
      read tag s r = Except.ok (ReadData.Data ⟨s.write_index, s.write_index, true⟩, r)) := by
  constructor
  · intro out r' hread
    obtain ⟨ht, hr'⟩ := read_ok_cursor hread
    subst hr'
    exact ⟨read_synced tag s _ rfl rfl rfl, collect_empty_view s s.write_index s.data.length⟩
  · intro ht h1 h2
    have hr : r = ⟨tag, s.write_index, s.written⟩ := by
      cases r
      simp_all
    rw [hr] at ht h1 h2 ⊢
    exact read_synced tag s _ ht h1 h2

/-- C6 witness: capacity 2 holding one element; a first (non-empty) read
resynchronises the cursor, the second read is the empty normal outcome, which
is also what a read with the caught-up cursor returns. -/
theorem read_then_read_empty_witness :
    (read 0 (writeAll (RingBufferStorage.new Nat 2) [9]) ⟨0, 1, 1⟩ =
        Except.ok (ReadData.Data ⟨1, 1, true⟩, (⟨0, 1, 1⟩ : ReaderId)) ∧
      collect (writeAll (RingBufferStorage.new Nat 2) [9]) ⟨1, 1, true⟩ 2 = some []) ∧
    read 0 (writeAll (RingBufferStorage.new Nat 2) [9]) ⟨0, 1, 1⟩ =
      Except.ok (ReadData.Data ⟨1, 1, true⟩, (⟨0, 1, 1⟩ : ReaderId)) :=
  ⟨(read_then_read_empty 0 (writeAll (RingBufferStorage.new Nat 2) [9]) ⟨0, 0, 0⟩).1
      (ReadData.Data ⟨0, 1, false⟩) ⟨0, 1, 1⟩ rfl,
   (read_then_read_empty 0 (writeAll (RingBufferStorage.new Nat 2) [9]) ⟨0, 1, 1⟩).2
      rfl (by decide) (by decide)⟩

/-- C8: a cursor from `new_reader_id` snapshots the current write position and
counter, and an immediate read with it returns the empty normal outcome no
matter what was written before the cursor was created. -/
theorem fresh_cursor_reads_empty {T : Type} (tag : Nat) (s : RingBufferStorage T) :
    (new_reader_id tag s).read_index = s.write_index ∧
    (new_reader_id tag s).written = s.written ∧
    read tag s (new_reader_id tag s) =
      Except.ok (ReadData.Data ⟨s.write_index, s.write_index, true⟩, new_reader_id tag s) ∧
    collect s ⟨s.write_index, s.write_index, true⟩ (s.data.length + 1) = some [] :=
  ⟨rfl, rfl, read_synced tag s (new_reader_id tag s) rfl rfl rfl,
   collect_empty_view s s.write_index s.data.length⟩

/-! ## Absence of panics (C7) -/

/-- C7: for every storage-and-cursor pair reachable through the API with a
matching type tag, the write position stays within the backing store (so
`single_write`'s in-place assignment is in bounds), `read` succeeds, and fully
traversing the returned view succeeds -- every index the iterator takes is in
bounds and the traversal terminates. -/
theorem read_no_out_of_bounds {T : Type} (tag : Nat) (s : RingBufferStorage T) (r : ReaderId)
    (h : ReachP tag s r) :
    s.write_index ≤ s.data.length ∧ exceptOk (read tag s r) = true ∧
      (readViewCollect tag s r).isSome = true :=
  read_collect_of_invP (reachP_invP h)

/-- C7 witness: a lapped capacity-2 buffer reached by three writes after
cursor creation; the read succeeds and its overflow view traverses fully. -/
theorem read_no_out_of_bounds_witness :
    (writeAll (RingBufferStorage.new Nat 2) [1, 2, 3]).write_index ≤
      (writeAll (RingBufferStorage.new Nat 2) [1, 2, 3]).data.length ∧
    exceptOk (read 0 (writeAll (RingBufferStorage.new Nat 2) [1, 2, 3])
      (new_reader_id 0 (RingBufferStorage.new Nat 2))) = true ∧
    (readViewCollect 0 (writeAll (RingBufferStorage.new Nat 2) [1, 2, 3])
      (new_reader_id 0 (RingBufferStorage.new Nat 2))).isSome = true :=
  read_no_out_of_bounds 0 _ _
    (ReachP.write _ _ 3 (ReachP.write _ _ 2 (ReachP.write _ _ 1
      (ReachP.create _ (ReachS.new 2)))))

end Shrev
